import Mathlib

/-!
Verification of the evo evolutionary-computation library.

This file is a shallow embedding, in Lean 4, of the parts of the Go code of
`github.com/cbarrick/evo` that the specification talks about:

* the IEEE-style float arithmetic used by the statistics collectors,
  modelled by the type `F` (rationals plus the infinities and NaN);
* the two `Stats` collectors (`StatsP` from the `Put`/`Merge` file,
  `StatsI` from the `Insert`/`Merge` file);
* the topology generators `Ring`, `Grid` and `Custom` of the packages
  `pop/graph` and `diffusion`, together with the wiring their `Custom`
  constructors actually perform;
* the per-node service loops of both packages, as transition functions on
  explicit node states;
* the elite selection pool of `sel/elite.go` as a state machine, and the
  padding and pairing logic of `sel/round_robin.go`;
* the counterpart-picking loop of `Evolve` on the generational population.

Genomes are modelled by their identities (natural numbers) where only
identity matters, and by explicit records carrying a fitness where the
fitness matters.  Go `%` on `int` is truncated division remainder, which is
`Int.tmod`; Go float comparisons are `F.ltb`/`F.gtb`/`F.eqb` (false on NaN).
-/

/-! ## A model of Go float64 values: rationals plus infinities and NaN.

Overflow and rounding are not modelled: finite values are exact rationals.
The special values follow IEEE semantics as implemented by the Go `math`
package, which is what the Stats code relies on. -/

inductive F where
  | fin (q : ℚ)
  | pinf
  | ninf
  | nan
deriving DecidableEq, Repr

/-- Negation of a float. -/
def F.neg : F → F
  | .fin q => .fin (-q)
  | .pinf => .ninf
  | .ninf => .pinf
  | .nan => .nan

/-- IEEE addition. -/
def F.add : F → F → F
  | .nan, _ => .nan
  | _, .nan => .nan
  | .pinf, .ninf => .nan
  | .ninf, .pinf => .nan
  | .pinf, _ => .pinf
  | _, .pinf => .pinf
  | .ninf, _ => .ninf
  | _, .ninf => .ninf
  | .fin a, .fin b => .fin (a + b)

/-- IEEE subtraction, `x - y = x + (-y)`. -/
def F.sub (x y : F) : F := x.add y.neg

/-- IEEE multiplication. -/
def F.mul : F → F → F
  | .nan, _ => .nan
  | _, .nan => .nan
  | .pinf, .pinf => .pinf
  | .pinf, .ninf => .ninf
  | .ninf, .pinf => .ninf
  | .ninf, .ninf => .pinf
  | .pinf, .fin b => if b = 0 then .nan else if 0 < b then .pinf else .ninf
  | .fin a, .pinf => if a = 0 then .nan else if 0 < a then .pinf else .ninf
  | .ninf, .fin b => if b = 0 then .nan else if 0 < b then .ninf else .pinf
  | .fin a, .ninf => if a = 0 then .nan else if 0 < a then .ninf else .pinf
  | .fin a, .fin b => .fin (a * b)

/-- IEEE division (signed zeros are not modelled; `q / 0` takes the sign
of `q`, and `0 / 0` is NaN). -/
def F.div : F → F → F
  | .nan, _ => .nan
  | _, .nan => .nan
  | .pinf, .pinf => .nan
  | .pinf, .ninf => .nan
  | .ninf, .pinf => .nan
  | .ninf, .ninf => .nan
  | .fin _, .pinf => .fin 0
  | .fin _, .ninf => .fin 0
  | .pinf, .fin b => if 0 ≤ b then .pinf else .ninf
  | .ninf, .fin b => if 0 ≤ b then .ninf else .pinf
  | .fin a, .fin b =>
      if b = 0 then (if a = 0 then .nan else if 0 < a then .pinf else .ninf)
      else .fin (a / b)

/-- Go `math.Max`: NaN if either argument is NaN, then the infinities,
then the finite maximum. -/
def F.fmax : F → F → F
  | .nan, _ => .nan
  | _, .nan => .nan
  | .pinf, _ => .pinf
  | _, .pinf => .pinf
  | .ninf, y => y
  | x, .ninf => x
  | .fin a, .fin b => .fin (max a b)

/-- Go `math.Min`: NaN if either argument is NaN, then the infinities,
then the finite minimum. -/
def F.fmin : F → F → F
  | .nan, _ => .nan
  | _, .nan => .nan
  | .ninf, _ => .ninf
  | _, .ninf => .ninf
  | .pinf, y => y
  | x, .pinf => x
  | .fin a, .fin b => .fin (min a b)

/-- Go float `<`: false whenever NaN is involved. -/
def F.ltb : F → F → Bool
  | .nan, _ => false
  | _, .nan => false
  | .ninf, .ninf => false
  | .ninf, _ => true
  | _, .ninf => false
  | .pinf, _ => false
  | _, .pinf => true
  | .fin a, .fin b => decide (a < b)

/-- Go float `>`. -/
def F.gtb (x y : F) : Bool := F.ltb y x

/-- Go float `==`: false whenever NaN is involved. -/
def F.eqb : F → F → Bool
  | .nan, _ => false
  | _, .nan => false
  | .pinf, .pinf => true
  | .ninf, .ninf => true
  | .fin a, .fin b => decide (a = b)
  | _, _ => false

/-! ## The `Put`/`Merge` statistics collector.

Faithful translation of the `Stats` type whose fields are
`max, min, sum, sumsq, count`; the zero value of the Go struct is the
empty collector. -/

structure StatsP where
  max : F
  min : F
  sum : F
  sumsq : F
  count : F
deriving DecidableEq, Repr

/-- The Go zero value of the `Put`/`Merge` collector. -/
def StatsP.zero : StatsP := ⟨.fin 0, .fin 0, .fin 0, .fin 0, .fin 0⟩

/-- Translation of `Stats.Put`:
`if x > s.max || s.count == 0 { s.max = x }`;
`if x < s.min || s.count == 0 { s.min = x }`;
`s.sum += x; s.sumsq += x*x; s.count++`. -/
def StatsP.put (s : StatsP) (x : F) : StatsP :=
  let s1 := if F.gtb x s.max || F.eqb s.count (.fin 0) then { s with max := x } else s
  let s2 := if F.ltb x s1.min || F.eqb s1.count (.fin 0) then { s1 with min := x } else s1
  { s2 with
    sum := s2.sum.add x
    sumsq := s2.sumsq.add (x.mul x)
    count := s2.count.add (.fin 1) }

/-- Translation of `Stats.Merge`: early return when `t.count == 0`; otherwise the counts,
sums and sums of squares are added first, and only then are the max and
min compared (`if t.max > s.max || s.count == 0` and
`if t.min > s.min || s.count == 0`, exactly as in the source, including
the direction of the min comparison). -/
def StatsP.merge (s t : StatsP) : StatsP :=
  if F.eqb t.count (.fin 0) then s
  else
    let s1 := { s with
      count := s.count.add t.count
      sum := s.sum.add t.sum
      sumsq := s.sumsq.add t.sumsq }
    let s2 := if F.gtb t.max s1.max || F.eqb s1.count (.fin 0) then { s1 with max := t.max } else s1
    let s3 := if F.gtb t.min s2.min || F.eqb s2.count (.fin 0) then { s2 with min := t.min } else s2
    s3

/-! ## The `Insert`/`Merge` statistics collector.

Faithful translation of the `Stats` type whose fields are
`max, min, mean, sumsq, len` (Welford insertion, pairwise merge). -/

structure StatsI where
  max : F
  min : F
  mean : F
  sumsq : F
  len : F
deriving DecidableEq, Repr

/-- The Go zero value of the `Insert`/`Merge` collector. -/
def StatsI.zero : StatsI := ⟨.fin 0, .fin 0, .fin 0, .fin 0, .fin 0⟩

/-- Translation of `Stats.Insert`: when `s.len == 0` the max and min are first reset to
`-Inf` and `+Inf`; then the Welford update. -/
def StatsI.insert (s : StatsI) (x : F) : StatsI :=
  let s1 := if F.eqb s.len (.fin 0) then { s with max := F.ninf, min := F.pinf } else s
  let delta := x.sub s1.mean
  let newlen := s1.len.add (.fin 1)
  { max := s1.max.fmax x
    min := s1.min.fmin x
    mean := s1.mean.add (delta.div newlen)
    sumsq := s1.sumsq.add ((delta.mul delta).mul (s1.len.div newlen))
    len := newlen }

/-- Translation of `Stats.Merge`: when the receiver is empty its max and min are reset to
`-Inf`/`+Inf`, but the fields of the argument are used as they are (the Go zero
value of an empty argument contributes its literal `0` max and min). -/
def StatsI.merge (s t : StatsI) : StatsI :=
  let s1 := if F.eqb s.len (.fin 0) then { s with max := F.ninf, min := F.pinf } else s
  let delta := t.mean.sub s1.mean
  let newlen := t.len.add s1.len
  { max := s1.max.fmax t.max
    min := s1.min.fmin t.min
    mean := s1.mean.add (delta.mul (t.len.div newlen))
    sumsq := (s1.sumsq.add t.sumsq).add ((delta.mul delta).mul ((t.len.mul s1.len).div newlen))
    len := newlen }

/-! ## Claims C3 and C7: merge equivalence and merging with an empty collector. -/

/-- Claim C3: the claim says that for every insertion sequence and every
partition into two subsequences, the incrementally accumulated Stats agree
(within floating-point tolerance) with the Stats obtained by accumulating
the parts separately and merging, and with a naive two-pass computation.
This theorem evaluates the `Put`/`Merge` collector at the failing input:
the sequence `[1, 0]` partitioned into `[1]` and `[0]`.  The incremental
minimum is `0` (which is also the naive minimum of the multiset `{1, 0}`),
but the merged minimum is `1`: `Merge` compares the minima with
`t.min > s.min`, keeping the larger of the two partial minima, while the
counts and sums merge correctly.  The divergence is exact, not a rounding
artifact. -/
theorem stats_merge_min_bug :
    ((StatsP.zero.put (.fin 1)).put (.fin 0)).min = F.fin 0 ∧
    ((StatsP.zero.put (.fin 1)).merge (StatsP.zero.put (.fin 0))).min = F.fin 1 ∧
    ((StatsP.zero.put (.fin 1)).merge (StatsP.zero.put (.fin 0))).count = F.fin 2 ∧
    ((StatsP.zero.put (.fin 1)).merge (StatsP.zero.put (.fin 0))).sum = F.fin 1 := by
  refine ⟨?_, ?_, ?_, ?_⟩ <;>
    norm_num [StatsP.zero, StatsP.put, StatsP.merge, F.add, F.mul, F.gtb, F.ltb, F.eqb]

/-- Claim C7: the claim says that merging with an empty accumulator returns
the other operand unchanged in every reported statistic, including min and
max.  This theorem evaluates both collectors at failing inputs.  For the
`Insert`/`Merge` collector, inserting `5` into the empty collector gives
min `5`, but merging that accumulator with the empty (zero-valued)
accumulator gives min `0`: the literal zero min of the empty argument is fed to
`math.Min`.  For the `Put`/`Merge` collector, merging the empty
accumulator with an accumulator of the single value `-5` gives max `0`
instead of `-5`: the `s.count == 0` guard in `Merge` is tested only after
the counts have already been added, so it never fires. -/
theorem stats_merge_empty_bug :
    (StatsI.zero.insert (.fin 5)).min = F.fin 5 ∧
    ((StatsI.zero.insert (.fin 5)).merge StatsI.zero).min = F.fin 0 ∧
    (StatsP.zero.put (.fin (-5))).max = F.fin (-5) ∧
    (StatsP.zero.merge (StatsP.zero.put (.fin (-5)))).max = F.fin 0 := by
  refine ⟨?_, ?_, ?_, ?_⟩ <;>
    norm_num [StatsP.zero, StatsP.put, StatsP.merge, StatsI.zero, StatsI.insert, StatsI.merge,
      F.add, F.sub, F.neg, F.mul, F.div, F.fmax, F.fmin, F.gtb, F.ltb, F.eqb]

/-! ## Topologies.

Adjacency lists are lists of rows of `ℤ` (Go `int`).  The Go `%` on `int`
is the truncated-division remainder, `Int.tmod`.  Both the `pop/graph`
and the `diffusion` package build a layout and hand it to their `Custom`
constructor, whose wiring loop is `peers[j] = &g.nodes[j]` in both
packages: the j-th peer of node `i` is node `j`, regardless of the value
`layout[i][j]`. -/

/-- The peer wiring performed by both `Custom` constructors: for each node,
the peer at position `j` is node `j` (`peers[j] = &g.nodes[j]`), so the
peer-index row of a node with `k` layout entries is `[0, 1, ..., k-1]`. -/
def customPeers (layout : List (List ℤ)) : List (List ℕ) :=
  layout.map (fun row => List.range row.length)

/-- A constructed graph, described by the list of peer-index rows of its
nodes. -/
structure GraphModel where
  peers : List (List ℕ)
deriving DecidableEq, Repr

/-- The `Custom` constructor of the `diffusion` package: panics (modelled
as `none`) when `len(layout) != len(values)` or when some `layout[i][j] >=
size` (the explicit validation loop); after validation, the wiring loop
`n.peers[j] = &g.nodes[j]` itself panics with an index out of range when a
row is longer than `len(values)` (its `j` runs over `layout[i]` but
indexes `g.nodes`), even when every stored index is in range.  Otherwise
the nodes are wired positionally. -/
def diffusionCustom (layout : List (List ℤ)) (nvalues : ℕ) : Option GraphModel :=
  if layout.length = nvalues then
    if ∃ row ∈ layout, ∃ x ∈ row, (nvalues : ℤ) ≤ x then none
    else if ∀ row ∈ layout, row.length ≤ nvalues then some ⟨customPeers layout⟩
    else none
  else none

/-- The `Custom` constructor of the `pop/graph` package: it performs no
validation of the index values in the layout.  The only failures are slice
bounds panics: reading `layout[i]` for each of the `len(values)` nodes
requires `len(values) <= len(layout)`, and `peers[j] = &g.nodes[j]`
requires `len(layout[i]) <= len(values)`. -/
def graphCustom (layout : List (List ℤ)) (nvalues : ℕ) : Option GraphModel :=
  if nvalues ≤ layout.length ∧ ∀ row ∈ layout.take nvalues, row.length ≤ nvalues then
    some ⟨customPeers (layout.take nvalues)⟩
  else none

/-- The `Ring` layout, identical in both packages: `layout[i]` is allocated
as `[0, 0]`, then position 0 is assigned `(i-1+N) % N` and then assigned
again `(i+1) % N` (the second store overwrites the first; position 1 is
never written). -/
def ringLayout (N : ℕ) : List (List ℤ) :=
  (List.range N).map (fun i =>
    let row : List ℤ := [0, 0]
    let row := row.set 0 (((i : ℤ) - 1 + N).tmod N)
    let row := row.set 0 (((i : ℤ) + 1).tmod N)
    row)

/-- The `Grid` layout of the `pop/graph` package: `width := len(values) << 1`
(doubling, not halving), and the four entries use offsets `1` and `width`. -/
def graphGridLayout (N : ℕ) : List (List ℤ) :=
  let width : ℤ := (N : ℤ) * 2
  (List.range N).map (fun i =>
    [ ((i : ℤ) + 1 + N).tmod N,
      ((i : ℤ) - 1 + N).tmod N,
      ((i : ℤ) + width + N).tmod N,
      ((i : ℤ) - width + N).tmod N ])

/-- The `Grid` layout of the `diffusion` package: `offset := len(values) / 2`
(Go integer division), and the four entries use offsets `1` and `offset`. -/
def diffusionGridLayout (N : ℕ) : List (List ℤ) :=
  let offset : ℤ := ((N / 2 : ℕ) : ℤ)
  (List.range N).map (fun i =>
    [ ((i : ℤ) + 1 + N).tmod N,
      ((i : ℤ) - 1 + N).tmod N,
      ((i : ℤ) + offset + N).tmod N,
      ((i : ℤ) - offset + N).tmod N ])

/-! ## Claims C1, C4, C5, C8. -/

/-- Claim C1: the claim (and the doc comment of `Custom` itself) says that
the j-th peer of node `i` is the node at index `layout[i][j]`, so that the
suitor set of node `i` is the set named by row `i`.  This theorem evaluates
the constructor at the failing input `layout = [[1,2,3],[0],[0],[0]]` with
4 genomes: construction succeeds, but the peers of node 0 are nodes `[0,1,2]`
(the positions, not the values): node 0 itself is a suitor although row 0
does not name it, and node 3 is named but is not a suitor.  The wiring
loop of both `Custom` constructors uses `&g.nodes[j]` where the
documentation requires `&g.nodes[layout[i][j]]`. -/
theorem custom_wiring_bug :
    diffusionCustom [[1, 2, 3], [0], [0], [0]] 4 =
      some ⟨[[0, 1, 2], [0], [0], [0]]⟩ ∧
    graphCustom [[1, 2, 3], [0], [0], [0]] 4 =
      some ⟨[[0, 1, 2], [0], [0], [0]]⟩ ∧
    (0 : ℕ) ∈ [0, 1, 2] ∧ (0 : ℤ) ∉ ([1, 2, 3] : List ℤ) ∧
    (3 : ℕ) ∉ ([0, 1, 2] : List ℕ) ∧ (3 : ℤ) ∈ ([1, 2, 3] : List ℤ) := by
  refine ⟨?_, ?_, ?_, ?_, ?_, ?_⟩ <;> decide

/-- Claim C4, counterexample: the claim says that construction fails for
any adjacency list containing an index `>= N`.  The `pop/graph` `Custom`
constructor performs no index validation: with one genome and the layout
`[[5]]` (index 5 over a population of size 1), construction succeeds. -/
theorem graphCustom_no_validation :
    graphCustom [[5]] 1 = some ⟨[[0]]⟩ := by decide

/-- Claim C4, amended: the `diffusion` constructor fails deterministically
(panic, before any node is started) for any adjacency list containing an
index `>= N`, and succeeds iff in addition to the claimed conditions
(length `N`, every index below `N`) every row has at most `N` entries —
a longer row passes the index validation but panics in the wiring loop.
The `pop/graph` constructor performs no index validation and succeeds
precisely when the slice accesses of its wiring loop stay in bounds,
independent of the index values stored in the layout. -/
theorem custom_construction_validation (layout : List (List ℤ)) (N : ℕ) :
    ((diffusionCustom layout N).isSome ↔
      (layout.length = N ∧ (∀ row ∈ layout, ∀ x ∈ row, x < (N : ℤ)) ∧
        ∀ row ∈ layout, row.length ≤ N)) ∧
    ((∃ row ∈ layout, ∃ x ∈ row, (N : ℤ) ≤ x) → diffusionCustom layout N = none) ∧
    ((graphCustom layout N).isSome ↔
      (N ≤ layout.length ∧ ∀ row ∈ layout.take N, row.length ≤ N)) := by
  refine ⟨?_, ?_, ?_⟩
  · unfold diffusionCustom
    by_cases hlen : layout.length = N
    · by_cases hex : ∃ row ∈ layout, ∃ x ∈ row, (N : ℤ) ≤ x
      · rw [if_pos hlen, if_pos hex]
        simp only [Option.isSome_none, Bool.false_eq_true, false_iff]
        rintro ⟨-, hall, -⟩
        obtain ⟨row, hrow, x, hx, hNx⟩ := hex
        exact absurd (hall row hrow x hx) (not_lt.mpr hNx)
      · rw [if_pos hlen, if_neg hex]
        by_cases hrows : ∀ row ∈ layout, row.length ≤ N
        · rw [if_pos hrows]
          push_neg at hex
          simp only [Option.isSome_some, true_iff]
          exact ⟨hlen, hex, hrows⟩
        · rw [if_neg hrows]
          simp only [Option.isSome_none, Bool.false_eq_true, false_iff]
          rintro ⟨-, -, h⟩
          exact hrows h
    · rw [if_neg hlen]
      simp only [Option.isSome_none, Bool.false_eq_true, false_iff]
      rintro ⟨h, -⟩
      exact hlen h
  · intro hex
    unfold diffusionCustom
    by_cases hlen : layout.length = N
    · rw [if_pos hlen, if_pos hex]
    · rw [if_neg hlen]
  · unfold graphCustom
    by_cases hok : N ≤ layout.length ∧ ∀ row ∈ layout.take N, row.length ≤ N
    · simp [hok]
    · simp [hok]

/-- Claim C5: the claim says the `Ring` constructor gives node `i` the two
neighbors `(i-1) mod N` and `(i+1) mod N`, and in particular for `N = 4`
that `neighbor[i] = {(i-1+4)%4, (i+1)%4}` for every `i`.  In the code, both
assignments of the row target position 0, so the computed layout row for
node `i` is `[(i+1)%N, 0]`: for `N = 4` the layout is
`[[1,0],[2,0],[3,0],[0,0]]`, and the row `[3,0]` of node 2 does not contain its
claimed neighbor `1`.  Moreover the layout is then passed through `Custom`,
whose wiring ignores the stored values, so the actual suitors of every node are
nodes 0 and 1. -/
theorem ring_layout_bug :
    ringLayout 4 = [[1, 0], [2, 0], [3, 0], [0, 0]] ∧
    (1 : ℤ) ∉ (ringLayout 4).getD 2 [] ∧
    customPeers (ringLayout 4) = [[0, 1], [0, 1], [0, 1], [0, 1]] := by
  refine ⟨?_, ?_, ?_⟩ <;> decide

/-- Claim C8: the claim says the `Grid` constructor gives node `i` the four
neighbors `(i+1) mod N`, `(i-1) mod N`, `(i+N/2) mod N`, `(i-N/2) mod N`.
The `Grid` of the `diffusion` package computes exactly that layout
(`offset := len(values) / 2`); the `Grid` of the `pop/graph` package computes
`width := len(values) << 1` — a left shift, i.e. `2N` instead of `N/2` —
so its third entry is `(i+3N) mod N = i` (the node itself) and its fourth
entry `(i-N) tmod N` is negative for `0 < i < N`.  Evaluated at `N = 6`,
node 1: the `pop/graph` layout row is `[2, 0, 1, -5]` where the claim
requires `[2, 0, 4, 4]`, which is what the `diffusion` layout computes. -/
theorem grid_offset_bug :
    (graphGridLayout 6).getD 1 [] = [2, 0, 1, -5] ∧
    (diffusionGridLayout 6).getD 1 [] = [2, 0, 4, 4] ∧
    (graphGridLayout 6).getD 1 [] ≠ (diffusionGridLayout 6).getD 1 [] := by
  refine ⟨?_, ?_, ?_⟩ <;> decide

/-! ## The per-node service loops.

Genomes are modelled by their identities (`ℕ`); Go compares genome
interface values with `==`, which is identity here.  Each `select` arm is
a transition function on the node state; the second component of a
result is the list of genomes closed by the transition. -/

/-- State of the `pop/graph` node loop: the visible value `n.val` and the
staging variable `nextval` (initialised to `n.val` when the loop starts). -/
structure GNodeState where
  val : ℕ
  nextval : ℕ
deriving DecidableEq, Repr

/-- The `case nextval = <-n.valc` arm of the `pop/graph` loop: an external
write stores the new genome in `nextval` only. -/
def graphSet (s : GNodeState) (x : ℕ) : GNodeState :=
  { s with nextval := x }

/-- The `case val := <-done` arm of the `pop/graph` loop, receiving the
child of the background evolution:
if `nextval == n.val` then `nextval = val`;
else if `val != n.val && val != nextval` then `val.Close()`;
else `n.val = nextval`. -/
def graphDone (s : GNodeState) (c : ℕ) : GNodeState × List ℕ :=
  if s.nextval = s.val then ({ s with nextval := c }, [])
  else if c ≠ s.val ∧ c ≠ s.nextval then (s, [c])
  else ({ val := s.nextval, nextval := s.nextval }, [])

/-- State of the `diffusion` node loop: the visible value and the
`manualOverride` flag. -/
structure DNodeState where
  value : ℕ
  manualOverride : Bool
deriving DecidableEq, Repr

/-- The `case val := <-n.valuec` arm of the `diffusion` loop: `set(val)`
closes the old value when it differs, then `manualOverride = true`. -/
def diffusionSet (s : DNodeState) (x : ℕ) : DNodeState × List ℕ :=
  if s.value ≠ x then (⟨x, true⟩, [s.value]) else (⟨x, true⟩, [])

/-- The `case child := <-updates` arm of the `diffusion` loop: when
`manualOverride` is not set, `set(child)` installs the child (closing the
prior value unless identical); when it is set, the child is ignored — it
is not closed — and the flag is cleared. -/
def diffusionChild (s : DNodeState) (c : ℕ) : DNodeState × List ℕ :=
  if s.manualOverride = false then
    if s.value ≠ c then (⟨c, false⟩, [s.value]) else (⟨c, false⟩, [])
  else (⟨s.value, false⟩, [])

/-! ## Claim C2. -/

/-- Claim C2: the claim says that when the background evolution of the
graph node completes with child `c`: with no intervening external
replacement, `c` is installed as the current value (closing the prior
value unless identical); with an external replacement, `c` is closed and
the externally-set value remains current.  This theorem evaluates both
cited loops at the failing inputs.  `pop/graph` loop, node with value 0,
no external write (`nextval = val = 0`), child 1: the child is merely
staged in `nextval`; the current value remains 0, nothing is closed, so
the child is not installed.  With an external write of 2 pending
(`nextval = 2`), child 1 is indeed closed, but the current value is still
the old 0, not the externally-set 2.  `diffusion` loop, after an external
write (`manualOverride` set), child 1 is discarded without being closed. -/
theorem node_loop_install_bug :
    graphDone ⟨0, 0⟩ 1 = (⟨0, 1⟩, []) ∧
    (graphDone ⟨0, 0⟩ 1).1.val ≠ 1 ∧
    graphDone ⟨0, 2⟩ 1 = (⟨0, 2⟩, [1]) ∧
    (graphDone ⟨0, 2⟩ 1).1.val ≠ 2 ∧
    diffusionChild ⟨0, true⟩ 1 = (⟨0, false⟩, []) ∧
    (1 : ℕ) ∉ (diffusionChild ⟨0, true⟩ 1).2 := by
  refine ⟨?_, ?_, ?_, ?_, ?_, ?_⟩ <;> decide

/-! ## The elite selection pool.

Competitors are genomes with an identity and a fitness; Go float fitness
values are idealised as exact rationals here (the elite pool only compares
them).  `sort.Sort` with `Less(i,j) = fit(i) > fit(j)` sorts the pool in
descending fitness order; it is modelled by `List.insertionSort` under the
relation `fitGE`.  The pool goroutine of `ElitePool(µ, λ)` collects values
from `in` until the pool holds λ competitors, sorts, sends the first µ
into the `out` buffer, and resets; `Get` takes from the buffer and blocks
(modelled as `none`) when it is empty. -/

structure Comp where
  id : ℕ
  fit : ℚ
deriving DecidableEq, Repr

/-- The comparator of `elcomps`: `h[i].fit > h[j].fit` as a non-strict
total order (descending by fitness). -/
def fitGE (a b : Comp) : Prop := b.fit ≤ a.fit

instance : DecidableRel fitGE := fun a b => inferInstanceAs (Decidable (b.fit ≤ a.fit))

instance : IsTotal Comp fitGE := ⟨fun a b => le_total b.fit a.fit⟩

instance : IsTrans Comp fitGE := ⟨fun _ _ _ h1 h2 => le_trans h2 h1⟩

/-- State of the elite pool: the parameters µ and λ, the collected
competitors of the current round, and the buffered, not yet retrieved
winners. -/
structure EPool where
  mu : ℕ
  lam : ℕ
  pool : List Comp
  outq : List Comp
deriving DecidableEq, Repr

/-- A fresh pool as created by `ElitePool(µ, λ)`. -/
def epoolNew (mu lam : ℕ) : EPool := ⟨mu, lam, [], []⟩

/-- One `Put`: the competitor is appended without evaluating its fitness;
when the pool reaches λ competitors it is sorted by fitness (evaluated at
this point) and the best µ are moved to the output buffer, after which the
pool resets (`pool = pool[:0]`). -/
def epoolPut : EPool → Comp → EPool
  | ⟨mu, lam, pool, outq⟩, g =>
    let pool2 := pool ++ [g]
    if pool2.length < lam then ⟨mu, lam, pool2, outq⟩
    else ⟨mu, lam, [], outq ++ (List.insertionSort fitGE pool2).take mu⟩

/-- A sequence of `Put` calls. -/
def epoolPuts (p : EPool) (gs : List Comp) : EPool := gs.foldl epoolPut p

/-- One `Get`: takes the next buffered winner, or blocks (`none`) when the
buffer is empty. -/
def epoolGet : EPool → Option (Comp × EPool)
  | ⟨_, _, _, []⟩ => none
  | ⟨mu, lam, pool, x :: rest⟩ => some (x, ⟨mu, lam, pool, rest⟩)

/-- Runs `n` consecutive `Get` calls, stopping early if one blocks. -/
def epoolGetN : EPool → ℕ → List Comp × EPool
  | p, 0 => ([], p)
  | p, n + 1 =>
    match epoolGet p with
    | none => ([], p)
    | some (x, p2) =>
      let r := epoolGetN p2 n
      (x :: r.1, r.2)

theorem epoolPuts_nil (p : EPool) : epoolPuts p [] = p := rfl

theorem epoolPuts_cons (p : EPool) (g : Comp) (t : List Comp) :
    epoolPuts p (g :: t) = epoolPuts (epoolPut p g) t := rfl

/-- Filling the pool: starting from a partially filled pool, putting the
competitors that bring the count exactly to λ flushes the sorted winners
to the output buffer and resets the pool. -/
theorem epoolPuts_fill (mu lam : ℕ) (gs : List Comp) :
    ∀ (acc outq : List Comp), acc.length + gs.length = lam → gs ≠ [] →
    epoolPuts ⟨mu, lam, acc, outq⟩ gs =
      ⟨mu, lam, [], outq ++ (List.insertionSort fitGE (acc ++ gs)).take mu⟩ := by
  induction gs with
  | nil => exact fun acc outq _ hne => absurd rfl hne
  | cons g t ih =>
    intro acc outq hlen _
    rw [epoolPuts_cons]
    cases t with
    | nil =>
      have hfull : (acc ++ [g]).length = lam := by
        simp only [List.length_append, List.length_cons, List.length_nil]
        simpa using hlen
      have step : epoolPut ⟨mu, lam, acc, outq⟩ g =
          ⟨mu, lam, [], outq ++ (List.insertionSort fitGE (acc ++ [g])).take mu⟩ := by
        simp only [epoolPut]
        rw [if_neg (by rw [hfull]; exact lt_irrefl lam)]
      rw [step, epoolPuts_nil]
    | cons g2 t2 =>
      have hlt : (acc ++ [g]).length < lam := by
        simp only [List.length_append, List.length_cons, List.length_nil]
        simp only [List.length_cons] at hlen
        omega
      have step : epoolPut ⟨mu, lam, acc, outq⟩ g = ⟨mu, lam, acc ++ [g], outq⟩ := by
        simp only [epoolPut]
        rw [if_pos hlt]
      rw [step, ih (acc ++ [g]) outq (by simp only [List.length_append,
        List.length_cons, List.length_nil] at hlen ⊢; omega) (by simp),
        List.append_assoc, List.singleton_append]

/-- Putting fewer competitors than λ only accumulates them. -/
theorem epoolPuts_underfill (mu lam : ℕ) (ys : List Comp) :
    ∀ (acc outq : List Comp), acc.length + ys.length < lam →
    epoolPuts ⟨mu, lam, acc, outq⟩ ys = ⟨mu, lam, acc ++ ys, outq⟩ := by
  induction ys with
  | nil => intro acc outq _; rw [epoolPuts_nil, List.append_nil]
  | cons g t ih =>
    intro acc outq h
    rw [epoolPuts_cons]
    have hlt : (acc ++ [g]).length < lam := by
      simp only [List.length_append, List.length_cons, List.length_nil]
      simp only [List.length_cons] at h
      omega
    have step : epoolPut ⟨mu, lam, acc, outq⟩ g = ⟨mu, lam, acc ++ [g], outq⟩ := by
      simp only [epoolPut]
      rw [if_pos hlt]
    rw [step, ih (acc ++ [g]) outq (by simp only [List.length_append,
      List.length_cons, List.length_nil] at h ⊢; omega),
      List.append_assoc, List.singleton_append]

/-- Draining the output buffer: as many `Get` calls as there are buffered
winners return exactly those winners in order. -/
theorem epoolGetN_drain (mu lam : ℕ) (pool : List Comp) (q : List Comp) :
    epoolGetN ⟨mu, lam, pool, q⟩ q.length = (q, ⟨mu, lam, pool, []⟩) := by
  induction q with
  | nil => rfl
  | cons x rest ih =>
    show epoolGetN ⟨mu, lam, pool, x :: rest⟩ (rest.length + 1) = _
    simp [epoolGetN, epoolGet, ih]

/-! ## Claim C6. -/

/-- Claim C6: for an elite pool with parameters (µ, λ), µ ≤ λ: after
exactly λ `Put` calls whose competitors have pairwise-distinct fitness,
the output buffer holds exactly the µ highest-fitness competitors in
strictly descending fitness order (they are a prefix of the sorted round,
whose remainder consists of competitors of strictly smaller fitness, the
whole being a permutation of the inputs); exactly µ `Get` calls return
them in order; the (µ+1)-th `Get` blocks; it stays blocked after any
further sequence of fewer than λ `Put` calls, and after exactly λ further
`Put` calls the winners of the next round are available. -/
theorem elitePool_round_spec (mu lam : ℕ) (gs ys : List Comp)
    (hmu : mu ≤ lam) (hlam : 0 < lam) (hgs : gs.length = lam)
    (hdist : gs.Pairwise (fun a b => a.fit ≠ b.fit))
    (hys : ys.length < lam) :
    (epoolPuts (epoolNew mu lam) gs).outq = (List.insertionSort fitGE gs).take mu ∧
    ((List.insertionSort fitGE gs).take mu).length = mu ∧
    ((List.insertionSort fitGE gs).take mu).Pairwise (fun a b => b.fit < a.fit) ∧
    List.Perm
      ((List.insertionSort fitGE gs).take mu ++ (List.insertionSort fitGE gs).drop mu) gs ∧
    (∀ y ∈ (List.insertionSort fitGE gs).drop mu,
      ∀ x ∈ (List.insertionSort fitGE gs).take mu, y.fit < x.fit) ∧
    epoolGetN (epoolPuts (epoolNew mu lam) gs) mu =
      ((List.insertionSort fitGE gs).take mu, ⟨mu, lam, [], []⟩) ∧
    epoolGet ⟨mu, lam, [], []⟩ = none ∧
    epoolPuts ⟨mu, lam, [], []⟩ ys = ⟨mu, lam, ys, []⟩ ∧
    (∀ zs : List Comp, zs.length = lam →
      (epoolPuts ⟨mu, lam, [], []⟩ zs).outq = (List.insertionSort fitGE zs).take mu) := by
  have hne : gs ≠ [] := by
    intro h
    rw [h] at hgs
    simp at hgs
    omega
  have hfill := epoolPuts_fill mu lam gs [] [] (by simpa using hgs) hne
  simp only [List.nil_append] at hfill
  have houtq : (epoolPuts (epoolNew mu lam) gs).outq =
      (List.insertionSort fitGE gs).take mu := by
    rw [show epoolNew mu lam = ⟨mu, lam, [], []⟩ from rfl, hfill]
  have hwinlen : ((List.insertionSort fitGE gs).take mu).length = mu := by
    rw [List.length_take, List.length_insertionSort, hgs]
    exact min_eq_left hmu
  have hperm : List.Perm (List.insertionSort fitGE gs) gs := List.perm_insertionSort fitGE gs
  have hsorted : (List.insertionSort fitGE gs).Pairwise fitGE :=
    List.sorted_insertionSort fitGE gs
  have hsymm : Symmetric (fun a b : Comp => a.fit ≠ b.fit) :=
    fun _ _ h e => h e.symm
  have hneSort : (List.insertionSort fitGE gs).Pairwise (fun a b => a.fit ≠ b.fit) :=
    (hperm.pairwise_iff @hsymm).mpr hdist
  have hstrictAll : (List.insertionSort fitGE gs).Pairwise (fun a b => b.fit < a.fit) :=
    (hsorted.and hneSort).imp (fun h => lt_of_le_of_ne h.1 (fun e => h.2 e.symm))
  have hstrictWin : ((List.insertionSort fitGE gs).take mu).Pairwise
      (fun a b => b.fit < a.fit) :=
    hstrictAll.sublist (List.take_sublist mu _)
  have hsplit : (List.insertionSort fitGE gs).take mu ++
      (List.insertionSort fitGE gs).drop mu = List.insertionSort fitGE gs :=
    List.take_append_drop mu _
  have hdom : ∀ y ∈ (List.insertionSort fitGE gs).drop mu,
      ∀ x ∈ (List.insertionSort fitGE gs).take mu, y.fit < x.fit := by
    have happ := (List.pairwise_append.mp (by rw [hsplit]; exact hstrictAll)).2.2
    exact fun y hy x hx => happ x hx y hy
  refine ⟨houtq, hwinlen, hstrictWin, by rw [hsplit]; exact hperm, hdom, ?_, rfl, ?_, ?_⟩
  · rw [show epoolNew mu lam = ⟨mu, lam, [], []⟩ from rfl, hfill]
    calc epoolGetN ⟨mu, lam, [], (List.insertionSort fitGE gs).take mu⟩ mu
        = epoolGetN ⟨mu, lam, [], (List.insertionSort fitGE gs).take mu⟩
            ((List.insertionSort fitGE gs).take mu).length := by rw [hwinlen]
      _ = ((List.insertionSort fitGE gs).take mu, ⟨mu, lam, [], []⟩) :=
          epoolGetN_drain mu lam [] _
  · exact epoolPuts_underfill mu lam ys [] [] (by simpa using hys)
  · intro zs hzs
    have hzsne : zs ≠ [] := by
      intro h
      rw [h] at hzs
      simp at hzs
      omega
    rw [epoolPuts_fill mu lam zs [] [] (by simpa using hzs) hzsne]
    simp only [List.nil_append]

/-- Witness for the claim C6 theorem at µ = 1, λ = 2 with the competitors
of fitness 1 and 2: after the two puts, the buffered winner list is the
best competitor, and a fresh (drained) pool blocks on `Get`. -/
theorem elitePool_round_spec_witness :
    (epoolPuts (epoolNew 1 2) [⟨0, 1⟩, ⟨1, 2⟩]).outq =
      (List.insertionSort fitGE [⟨0, 1⟩, ⟨1, 2⟩]).take 1 ∧
    epoolGet ⟨1, 2, [], []⟩ = none := by
  have h := elitePool_round_spec 1 2 [⟨0, 1⟩, ⟨1, 2⟩] []
    (by norm_num) (by norm_num) rfl
    (by norm_num [List.pairwise_cons]) (by norm_num)
  exact ⟨h.1, h.2.2.2.2.2.2.1⟩

/-! ## The round-robin selection pool.

Round-robin competitors carry a fitness in `WithBot ℚ`: the bottom element
models `math.Inf(-1)`, the fitness of the `dummy` sentinel used to pad an
odd tournament.  A pairing `run(i, j)` compares
`pool[i].Fitness() < pool[j].Fitness()` and the winner is `j` on a strict
increase, `i` otherwise. -/

structure RComp where
  id : ℕ
  fit : WithBot ℚ
deriving DecidableEq

/-- The `dummy` sentinel: its `Fitness()` is `math.Inf(-1)`.  (Its win
counter is seeded with `-1` in the source; only its fitness matters for
the pairing outcomes modelled here.) -/
def rrDummy : RComp := ⟨1000000, ⊥⟩

/-- The padding step of `RoundRobinPool(µ, λ, rounds)` (and of
`RoundRobin`): when λ is odd, exactly one `dummy` is appended before the
tournament. -/
def rrPad (lam : ℕ) (gs : List RComp) : List RComp :=
  if lam % 2 ≠ 0 then gs ++ [rrDummy] else gs

/-- One pairing of `tourney`: `run(i, j)` sends `j` over `winners` when
`pool[i].Fitness() < pool[j].Fitness()`, else `i`.  Modelled on the two
competitors themselves. -/
def rrRunWinner (x y : RComp) : RComp :=
  if x.fit < y.fit then y else x

/-- The guard at the top of `tourney`: it panics unless the pool size is
even.  `true` means the tournament is accepted. -/
def rrTourneyAccepts (pool : List RComp) : Bool :=
  pool.length % 2 == 0

/-! ## Claim C9. -/

/-- Claim C9, counterexample: the claim says the sentinel never wins any
pairing of the tournament.  In the pairing `run(i, j)` the winner on a
fitness tie is the first of the pair; a genome whose `Fitness()` is also
`-Inf` is representable (the comparison `-Inf < -Inf` is false), and
against such an opponent the sentinel, in first position, wins the
pairing. -/
theorem rrDummy_can_win_counterexample :
    rrRunWinner rrDummy ⟨0, ⊥⟩ = rrDummy ∧ (⟨0, ⊥⟩ : RComp) ≠ rrDummy := by
  constructor
  · simp [rrRunWinner, rrDummy]
  · intro h
    simp [rrDummy] at h

/-- Claim C9, amended: with odd λ, exactly one always-losing sentinel is
appended (with even λ none is), the padded pool always has even size so
the odd-size panic of the tournament can never fire — an odd λ is never
rejected — and the sentinel loses every pairing against an opponent whose
fitness is strictly greater than `-Inf`, in either position of the
pairing. -/
theorem roundRobin_pad_spec (lam : ℕ) (gs : List RComp) (h : gs.length = lam) :
    (lam % 2 = 1 → rrPad lam gs = gs ++ [rrDummy]) ∧
    (lam % 2 = 0 → rrPad lam gs = gs) ∧
    (rrPad lam gs).length % 2 = 0 ∧
    rrTourneyAccepts (rrPad lam gs) = true ∧
    (∀ g : RComp, ⊥ < g.fit →
      rrRunWinner rrDummy g = g ∧ rrRunWinner g rrDummy = g) := by
  have hpadlen : (rrPad lam gs).length % 2 = 0 := by
    unfold rrPad
    by_cases hodd : lam % 2 ≠ 0
    · rw [if_pos hodd]
      simp only [List.length_append, List.length_cons, List.length_nil, h]
      omega
    · rw [if_neg hodd]
      rw [h]
      omega
  refine ⟨?_, ?_, hpadlen, ?_, ?_⟩
  · intro hodd
    unfold rrPad
    rw [if_pos (by omega)]
  · intro heven
    unfold rrPad
    rw [if_neg (by omega)]
  · unfold rrTourneyAccepts
    simp [hpadlen]
  · intro g hg
    constructor
    · unfold rrRunWinner
      rw [if_pos (by simpa [rrDummy] using hg)]
    · unfold rrRunWinner
      rw [if_neg (by simp [rrDummy])]

/-- Witness for the amended claim C9 theorem at λ = 3 with three competitors
of finite fitness: one sentinel is appended, and the sentinel loses both
positions of a pairing against the competitor of fitness 7. -/
theorem roundRobin_pad_spec_witness :
    rrPad 3 [⟨0, 5⟩, ⟨1, 6⟩, ⟨2, 7⟩] = [⟨0, 5⟩, ⟨1, 6⟩, ⟨2, 7⟩] ++ [rrDummy] ∧
    rrRunWinner rrDummy ⟨2, 7⟩ = ⟨2, 7⟩ ∧ rrRunWinner ⟨2, 7⟩ rrDummy = ⟨2, 7⟩ := by
  have h := roundRobin_pad_spec 3 [⟨0, 5⟩, ⟨1, 6⟩, ⟨2, 7⟩] rfl
  have hg := h.2.2.2.2 ⟨2, 7⟩ (by decide)
  exact ⟨h.1 rfl, hg.1, hg.2⟩

/-! ## The migration counterpart loop of the generational population.

Populations are modelled by their identities (`ℕ`).  `Evolve` starts with
`other = pop` and redraws `other = suiters[rand.Intn(len(suiters))]` while
`other == pop`.  The random draws are modelled by an arbitrary stream of
indices (`draws`), and the loop by a fuel-bounded recursion: `none` means
the loop has not exited within the given number of iterations. -/

/-- The redraw loop of the generational `Evolve`: at iteration `step`, draw
`suiters[draws step]`; exit with the drawn population when it differs from
the receiver, otherwise redraw. -/
def pickOtherFuel (pop : ℕ) (suiters : List ℕ) (draws : ℕ → ℕ) :
    ℕ → ℕ → Option ℕ
  | _, 0 => none
  | step, fuel + 1 =>
    let other := suiters.getD (draws step) pop
    if other = pop then pickOtherFuel pop suiters draws (step + 1) fuel
    else some other

/-! ## Claim C10. -/

/-- Claim C10: the generational `Evolve` picks its migration counterpart by
redrawing from the suitor list until the draw differs from the receiver.
(1) If every suitor is the receiver itself, the loop never exits: for
every draw stream, every starting point and every amount of fuel, the loop
has not terminated.  (2) Termination implies its precondition: whenever
the loop exits with some counterpart, that counterpart is a suitor
distinct from the receiver — so `Evolve` can only terminate if at least
one suitor differs from the receiver.  (3) Conversely, when some suitor
differs from the receiver, there is a draw stream under which the loop
exits (at once, with one unit of fuel). -/
theorem generational_evolve_pick (pop : ℕ) (suiters : List ℕ) (draws : ℕ → ℕ)
    (hvalid : ∀ k, draws k < suiters.length) :
    ((∀ x ∈ suiters, x = pop) →
      ∀ step fuel, pickOtherFuel pop suiters draws step fuel = none) ∧
    (∀ step fuel o, pickOtherFuel pop suiters draws step fuel = some o →
      o ∈ suiters ∧ o ≠ pop) ∧
    ((∃ x ∈ suiters, x ≠ pop) →
      ∃ d2 : ℕ → ℕ, (∀ k, d2 k < suiters.length) ∧
        ∃ fuel, pickOtherFuel pop suiters d2 0 fuel ≠ none) := by
  have hmem : ∀ step, suiters.getD (draws step) pop ∈ suiters := by
    intro step
    rw [List.getD_eq_getElem suiters pop (hvalid step)]
    exact List.getElem_mem _
  refine ⟨?_, ?_, ?_⟩
  · intro hall step fuel
    induction fuel generalizing step with
    | zero => rfl
    | succ n ih =>
      unfold pickOtherFuel
      rw [if_pos (hall _ (hmem step))]
      exact ih (step + 1)
  · intro step fuel
    induction fuel generalizing step with
    | zero => intro o h; exact absurd h (by simp [pickOtherFuel])
    | succ n ih =>
      intro o h
      unfold pickOtherFuel at h
      by_cases hd : suiters.getD (draws step) pop = pop
      · rw [if_pos hd] at h
        exact ih (step + 1) o h
      · rw [if_neg hd] at h
        obtain rfl : suiters.getD (draws step) pop = o := Option.some_injective _ h
        exact ⟨hmem step, hd⟩
  · rintro ⟨x, hx, hne⟩
    obtain ⟨n, hn⟩ := List.mem_iff_get.mp hx
    refine ⟨fun _ => n.val, fun _ => n.isLt, 1, ?_⟩
    have hx2 : suiters.getD n.val pop = x := by
      rw [List.getD_eq_getElem suiters pop n.isLt, ← List.get_eq_getElem]
      exact hn
    unfold pickOtherFuel
    rw [hx2, if_neg hne]
    simp

/-- Witness for the claim C10 theorem: receiver 0 with suitors `[0, 1]` and
the draw stream constantly drawing index 1; one unit of fuel suffices and
the result, suitor 1, is a suitor distinct from the receiver. -/
theorem generational_evolve_pick_witness :
    pickOtherFuel 0 [0, 1] (fun _ => 1) 0 1 = some 1 ∧
    (1 : ℕ) ∈ ([0, 1] : List ℕ) ∧ (1 : ℕ) ≠ 0 := by
  have h := generational_evolve_pick 0 [0, 1] (fun _ => 1)
    (by intro k; norm_num)
  have heval : pickOtherFuel 0 [0, 1] (fun _ => 1) 0 1 = some 1 := by decide
  exact ⟨heval, h.2.1 0 1 1 heval⟩

/-- Witness for the amended claim C4 theorem: over two genomes, the in-range
layout `[[1], [0]]` constructs successfully in the `diffusion` package;
the layout `[[2], [0]]`, containing the out-of-range index 2, fails
deterministically there; and the layout `[[0, 0, 0], [0]]`, whose indices
are all in range but whose first row has three entries, fails in the
wiring loop. -/
theorem custom_construction_validation_witness :
    (diffusionCustom [[1], [0]] 2).isSome = true ∧
    diffusionCustom [[2], [0]] 2 = none ∧
    diffusionCustom [[0, 0, 0], [0]] 2 = none := by
  have h1 := (custom_construction_validation [[1], [0]] 2).1
  have h2 := (custom_construction_validation [[2], [0]] 2).2.1
  have h3 := (custom_construction_validation [[0, 0, 0], [0]] 2).1
  refine ⟨h1.mpr ⟨rfl, by decide, by decide⟩, h2 (by decide), ?_⟩
  have hno : ¬ (diffusionCustom [[0, 0, 0], [0]] 2).isSome = true := by
    rw [h3]
    rintro ⟨-, -, hall⟩
    exact absurd (hall [0, 0, 0] (by decide)) (by decide)
  exact Option.not_isSome_iff_eq_none.mp (by simpa using hno)
